import Mathlib

/-!
Verification of the dnsres DNS resolution monitor.

Shallow embedding of the parts of the source relevant to the checked
claims: the DNS analysis package (`dnsanalysis/dnsanalysis.go`), the
sharded cache (`cache/sharded.go`), the circuit breaker
(`circuitbreaker`, in its metrics-instrumented form), the event bus
(package `dnsres`), the DNS client pool (`dnspool/pool.go`) and the DNS
server normalization performed at config load (`config.go`).

Modelling conventions:
- Go strings are `List Char` (`Str`), Go `int`/`int64` are `Int`
  (overflow is made explicit where the source depends on it, namely in
  the cache's shard hash), Go `uint32` TTLs are `Nat`.
- `time.Time` instants and `time.Duration` values are integers; the
  current instant is passed explicitly to each operation that reads the
  clock.
- Go maps are modelled either as association lists (the cache shard,
  whose eviction logic iterates the map) or as total functions with a
  default (the pool's client map, the metric families).
- Stateful methods become pure functions returning the updated state.
  Prometheus metric updates are modelled only where a claim is about
  them (the circuit breaker); elsewhere they are omitted side effects.
-/

abbrev Str := List Char

/-! ## DNS analysis (`dnsanalysis/dnsanalysis.go`) -/

/-- A resource record as far as the analysis code inspects it: its type
code (`dns.RR_Header.Rrtype`, e.g. 46 = RRSIG, 48 = DNSKEY, 41 = OPT)
and its TTL (`dns.RR_Header.Ttl`). -/
structure RR where
  rrtype : Nat
  ttl : Nat
  deriving DecidableEq

/-- The sections of a `dns.Msg` the analysis code reads: the answer
section and the additional section (where `IsEdns0` finds the OPT
pseudo-record). -/
structure Msg where
  answer : List RR
  extra : List RR
  deriving DecidableEq

/-- `DNSResponse` from `dnsanalysis/dnsanalysis.go`. `RecordCount` is
keyed by the numeric RR type code rather than by its `TypeToString`
name; the Go mapping from assigned type codes to names is injective, so
the counts coincide. `Response` keeps the decoded message. -/
structure DNSResponse where
  server : Str
  hostname : Str
  addresses : List Str
  response : Msg
  recordCount : Nat → Nat
  ttl : Nat
  size : Int
  dnssec : Bool
  edns : Bool
  protocol : Str
  duration : Int

/-- `CompareResponses` from `dnsanalysis/dnsanalysis.go`: a list of at
most one response is consistent; otherwise every later response must
have the same number of addresses as the first and each of its
addresses must be a member of the first response's address set. -/
def CompareResponses (responses : List DNSResponse) : Bool :=
  if responses.length ≤ 1 then
    true
  else
    match responses with
    | [] => true
    | first :: rest =>
      rest.all fun r =>
        r.addresses.length == first.addresses.length &&
        r.addresses.all fun addr => first.addresses.contains addr

/-- The consistency predicate in the words of the specification: for
every pair (A, B) in the list, set(A.addresses) == set(B.addresses) and
len(A.addresses) == len(B.addresses). Used to compare the code's
`CompareResponses` against the specification. -/
def specConsistent (responses : List DNSResponse) : Bool :=
  responses.all fun a =>
    responses.all fun b =>
      (a.addresses.all fun addr => b.addresses.contains addr) &&
      (b.addresses.all fun addr => a.addresses.contains addr) &&
      (a.addresses.length == b.addresses.length)

/-- `getMinTTL` from `dnsanalysis/dnsanalysis.go` (the same function is
duplicated in `dnsres.go` for the resolve pipeline): 0 on an empty
answer section, otherwise a fold starting from the first record's TTL
that keeps the smaller TTL. -/
def getMinTTL (msg : Msg) : Nat :=
  match msg.answer with
  | [] => 0
  | first :: _ =>
    msg.answer.foldl (fun minTTL rr => if rr.ttl < minTTL then rr.ttl else minTTL) first.ttl

/-- `hasDNSSEC` from `dnsanalysis/dnsanalysis.go`: an RRSIG (46) or
DNSKEY (48) record in the answer section. -/
def hasDNSSEC (msg : Msg) : Bool :=
  msg.answer.any fun rr => rr.rrtype == 46 || rr.rrtype == 48

/-- `hasEDNS` from `dnsanalysis/dnsanalysis.go`: `msg.IsEdns0() != nil`,
i.e. an OPT pseudo-record (41) in the additional section. -/
def hasEDNS (msg : Msg) : Bool :=
  msg.extra.any fun rr => rr.rrtype == 41

/-- The answer-section loop of `AnalyzeResponse`: starting from the
zero-initialized `RecordCount`/`TTL`, each record increments its type's
count and overwrites `analysis.TTL` with its own TTL. -/
def analyzeAnswerLoop (answer : List RR) : (Nat → Nat) × Nat :=
  answer.foldl
    (fun acc rr => (fun t => if t = rr.rrtype then acc.1 t + 1 else acc.1 t, rr.ttl))
    (fun _ => 0, 0)

/-- `AnalyzeResponse` from `dnsanalysis/dnsanalysis.go`, without its
metric observations (side effects on the Prometheus registry). Note the
`TTL` field: the loop assigns `analysis.TTL = rr.Header().Ttl` on every
answer record, so the field ends up holding the last record's TTL, not
the minimum. -/
def AnalyzeResponse (server hostname : Str) (response : Msg) (size : Int)
    (protocol : Str) (duration : Int) : DNSResponse :=
  let loop := analyzeAnswerLoop response.answer
  { server := server
    hostname := hostname
    addresses := []
    response := response
    recordCount := loop.1
    ttl := loop.2
    size := size
    dnssec := hasDNSSEC response
    edns := hasEDNS response
    protocol := protocol
    duration := duration }

/-! ## Circuit breaker (`circuitbreaker`) -/

/-- `CircuitBreaker` fields from the metrics-instrumented
`circuitbreaker.go`: threshold and timeout from the constructor,
failure count, time of the last recorded failure, and the server label
used for metrics. The plain variant of the file has the same fields
minus `server`. -/
structure CircuitBreaker where
  threshold : Int
  timeout : Int
  failures : Int
  lastError : Int
  server : Str

/-- `NewCircuitBreaker(threshold, timeout, server)`: zero failures, zero
last-error instant. -/
def newCircuitBreaker (threshold timeout : Int) (server : Str) : CircuitBreaker :=
  { threshold := threshold, timeout := timeout, failures := 0, lastError := 0, server := server }

/-- The two Prometheus families the breaker touches:
`CircuitBreakerFailures` (counter `breaker_failures_total`, per server
label) and `CircuitBreakerState` (gauge `breaker_state`, per server
label, holding the codes Closed=0, Open=1, HalfOpen=2). -/
structure BreakerMetrics where
  failuresTotal : Str → Nat
  stateGauge : Str → Int

/-- A fresh metrics registry: all counters zero, all gauges zero. -/
def initialBreakerMetrics : BreakerMetrics :=
  { failuresTotal := fun _ => 0, stateGauge := fun _ => 0 }

/-- `CircuitBreakerFailures.WithLabelValues(s).Inc()`. -/
def incFailuresTotal (m : BreakerMetrics) (s : Str) : BreakerMetrics :=
  { m with failuresTotal := fun x => if x = s then m.failuresTotal x + 1 else m.failuresTotal x }

/-- `CircuitBreakerState.WithLabelValues(s).Set(v)`. -/
def setStateGauge (m : BreakerMetrics) (s : Str) (v : Int) : BreakerMetrics :=
  { m with stateGauge := fun x => if x = s then v else m.stateGauge x }

/-- `Allow` from the metrics-instrumented `circuitbreaker.go`
(src/unnamed/part_014 lines 81-97): when failures have reached the
threshold and the timeout has not yet elapsed, set the state gauge to
Open (1) and return false; otherwise set the gauge to HalfOpen (2) or
Closed (0), increment `CircuitBreakerFailures`, and return true. This
variant never mutates the breaker's counters. -/
def CircuitBreaker.allow (cb : CircuitBreaker) (now : Int) (m : BreakerMetrics) :
    Bool × BreakerMetrics :=
  if cb.threshold ≤ cb.failures then
    if now - cb.lastError < cb.timeout then
      (false, setStateGauge m cb.server 1)
    else
      (true, incFailuresTotal (setStateGauge m cb.server 2) cb.server)
  else
    (true, incFailuresTotal (setStateGauge m cb.server 0) cb.server)

/-- `Allow` from the plain `circuitbreaker/circuitbreaker.go` (lines
35-47): same decision, no metrics, and the failure count is reset to 0
when the timeout has elapsed. -/
def CircuitBreaker.allowPlain (cb : CircuitBreaker) (now : Int) : Bool × CircuitBreaker :=
  if cb.threshold ≤ cb.failures then
    if now - cb.lastError < cb.timeout then
      (false, cb)
    else
      (true, { cb with failures := 0 })
  else
    (true, cb)

/-- `RecordSuccess` from the metrics-instrumented `circuitbreaker.go`
(part_014 lines 100-106): reset failures, set the state gauge to Closed
(0) — and increment `CircuitBreakerFailures`. -/
def CircuitBreaker.recordSuccess (cb : CircuitBreaker) (m : BreakerMetrics) :
    CircuitBreaker × BreakerMetrics :=
  ({ cb with failures := 0 },
   incFailuresTotal (setStateGauge m cb.server 0) cb.server)

/-- `RecordFailure` from the metrics-instrumented `circuitbreaker.go`
(part_014 lines 109-119): increment failures, stamp the failure time,
increment `CircuitBreakerFailures`, and set the state gauge to Open (1)
when the new count reaches the threshold. -/
def CircuitBreaker.recordFailure (cb : CircuitBreaker) (now : Int) (m : BreakerMetrics) :
    CircuitBreaker × BreakerMetrics :=
  let cb := { cb with failures := cb.failures + 1, lastError := now }
  let m := incFailuresTotal m cb.server
  (cb, if cb.threshold ≤ cb.failures then setStateGauge m cb.server 1 else m)

/-- `GetState`: the state string computed from (failures, lastError) and
the current time. -/
def CircuitBreaker.getState (cb : CircuitBreaker) (now : Int) : Str :=
  if cb.threshold ≤ cb.failures then
    if now - cb.lastError < cb.timeout then
      ['o', 'p', 'e', 'n']
    else
      ['h', 'a', 'l', 'f', '-', 'o', 'p', 'e', 'n']
  else
    ['c', 'l', 'o', 's', 'e', 'd']

/-! ## Sharded cache (`cache/sharded.go`) -/

/-- `CacheEntry`: the cached response, its absolute expiry instant
(`time.Now().Add(ttl)` at insertion) and its size contribution. -/
structure CacheEntry where
  response : DNSResponse
  expires : Nat
  size : Int

/-- `CacheShard`: the entry map (modelled as an association list whose
order stands in for Go's unspecified map iteration order) and the
incrementally tracked byte size. -/
structure CacheShard where
  entries : List (Str × CacheEntry)
  size : Int

/-- `ShardedCache`: the shard slice, the shard count and the total size
budget. -/
structure ShardedCache where
  shards : List CacheShard
  numShards : Int
  maxSize : Int

/-- The empty shard. -/
def emptyShard : CacheShard := { entries := [], size := 0 }

/-- `NewShardedCache(maxSize, numShards)`: `numShards <= 0` falls back
to the default 16; all shards start empty. -/
def newShardedCache (maxSize numShards : Int) : ShardedCache :=
  let n : Int := if numShards ≤ 0 then 16 else numShards
  { shards := List.replicate n.toNat emptyShard, numShards := n, maxSize := maxSize }

/-- UTF-8 encoding of one character, as `[]byte(key)` produces. -/
def utf8Bytes (c : Char) : List Nat :=
  let n := c.toNat
  if n < 0x80 then [n]
  else if n < 0x800 then
    [0xC0 + n / 0x40, 0x80 + n % 0x40]
  else if n < 0x10000 then
    [0xE0 + n / 0x1000, 0x80 + n / 0x40 % 0x40, 0x80 + n % 0x40]
  else
    [0xF0 + n / 0x40000, 0x80 + n / 0x1000 % 0x40, 0x80 + n / 0x40 % 0x40, 0x80 + n % 0x40]

/-- Byte length of a Go string (`len(s)` counts UTF-8 bytes). -/
def utf8Len (s : Str) : Nat :=
  (s.flatMap utf8Bytes).length

/-- `estimateSize`: `len(Server) + len(Hostname)` plus the byte lengths
of all addresses. -/
def estimateSize (response : DNSResponse) : Int :=
  response.addresses.foldl (fun size addr => size + utf8Len addr)
    ((utf8Len response.server : Int) + utf8Len response.hostname)

/-- Go map read `entries[key]` (first binding of the key). -/
def lookupEntry : List (Str × CacheEntry) → Str → Option CacheEntry
  | [], _ => none
  | p :: rest, key => if p.1 = key then some p.2 else lookupEntry rest key

/-- Go map `delete(entries, key)` (removes the first binding of the
key; shard maps never hold a duplicate key). -/
def eraseKey : List (Str × CacheEntry) → Str → List (Str × CacheEntry)
  | [], _ => []
  | p :: rest, key => if p.1 = key then rest else p :: eraseKey rest key

/-- The scan loop of `evictOldest`: iterate the shard map with the
accumulator (oldestKey, oldestTime), starting from the empty key and
the zero time, replacing the accumulator whenever `oldestKey == ""` or
the entry expires strictly before `oldestTime`. Note the sentinel: an
actual empty-string key, once selected, re-triggers the `oldestKey ==
""` branch on every later record. -/
def selectOldest (entries : List (Str × CacheEntry)) : Str × Nat :=
  entries.foldl
    (fun acc p => if acc.1 = [] ∨ p.2.expires < acc.2 then (p.1, p.2.expires) else acc)
    ([], 0)

/-- `evictOldest` from `cache/sharded.go` (lines 194-210): scan for the
oldest key; if the selected key is not the empty string, remove it and
subtract its looked-up size. (The eviction counter metric is an omitted
side effect.) -/
def evictOldest (shard : CacheShard) : CacheShard :=
  if (selectOldest shard.entries).1 ≠ [] then
    { entries := eraseKey shard.entries (selectOldest shard.entries).1,
      size := shard.size -
        ((lookupEntry shard.entries (selectOldest shard.entries).1).map (·.size)).getD 0 }
  else
    shard

/-- The body of `Set` on the key's shard (lines 86-116): compute the
entry size; if `shard.size + size` exceeds the per-shard quota, run
`evictOldest` once; subtract the old entry's size if the key is already
present; insert the new entry with `Expires = now + ttl` and add its
size. -/
def setShard (quota : Int) (shard : CacheShard) (key : Str) (response : DNSResponse)
    (ttl now : Nat) : CacheShard :=
  let size := estimateSize response
  let shard := if quota < shard.size + size then evictOldest shard else shard
  let entry : CacheEntry := { response := response, expires := now + ttl, size := size }
  let shard :=
    match lookupEntry shard.entries key with
    | some old => { shard with size := shard.size - old.size }
    | none => shard
  { entries := (key, entry) :: eraseKey shard.entries key, size := shard.size + size }

/-- The body of `Get` on the key's shard (lines 54-83): a missing key is
a miss; an entry with `now.After(Expires)` is deleted (the write-lock
re-check re-reads the same entry in this sequential model) and reported
as a miss; otherwise the entry's response is returned aliased. (Hit and
miss counter metrics are omitted side effects.) -/
def getShard (shard : CacheShard) (key : Str) (now : Nat) :
    Option DNSResponse × CacheShard :=
  match lookupEntry shard.entries key with
  | none => (none, shard)
  | some entry =>
    if entry.expires < now then
      (none, { entries := eraseKey shard.entries key, size := shard.size - entry.size })
    else
      (some entry.response, shard)

/-- The body of `Delete` on the key's shard (lines 119-132). -/
def deleteShard (shard : CacheShard) (key : Str) : CacheShard :=
  match lookupEntry shard.entries key with
  | some entry =>
    { entries := eraseKey shard.entries key, size := shard.size - entry.size }
  | none => shard

/-- Wrap of a signed 64-bit quantity, as Go `int` arithmetic overflows. -/
def int64Wrap (x : Int) : Int :=
  (x + 2 ^ 63) % 2 ^ 64 - 2 ^ 63

/-- The hash loop of `getShard` in `cache/sharded.go` (lines 178-190):
`hash = hash*31 + int(b)` over the key's bytes with 64-bit wraparound,
negated if negative. `hash % numShards` uses Go's truncated remainder;
the single input on which the negation itself wraps (the minimum
`int64`) would make Go panic on a negative slice index and is clamped
to shard 0 here by `Int.toNat`. -/
def getShardIdx (c : ShardedCache) (key : Str) : Nat :=
  let hash := (key.flatMap utf8Bytes).foldl (fun h b => int64Wrap (h * 31 + b)) 0
  let hash := if hash < 0 then int64Wrap (-hash) else hash
  (Int.tmod hash c.numShards).toNat

/-- The per-shard quota `c.maxSize / int64(c.numShards)` (Go's
truncated integer division). -/
def shardQuota (c : ShardedCache) : Int :=
  Int.tdiv c.maxSize c.numShards

/-- `Set(key, response, ttl)` at cache level: route to the key's shard
and update it. (The cache-size gauge update is an omitted side
effect.) -/
def cacheSet (c : ShardedCache) (key : Str) (response : DNSResponse) (ttl now : Nat) :
    ShardedCache :=
  let i := getShardIdx c key
  { c with shards := c.shards.set i (setShard (shardQuota c) (c.shards.getD i emptyShard) key response ttl now) }

/-- `Get(key)` at cache level. -/
def cacheGet (c : ShardedCache) (key : Str) (now : Nat) :
    Option DNSResponse × ShardedCache :=
  let i := getShardIdx c key
  let r := getShard (c.shards.getD i emptyShard) key now
  (r.1, { c with shards := c.shards.set i r.2 })

/-- `Delete(key)` at cache level. -/
def cacheDelete (c : ShardedCache) (key : Str) : ShardedCache :=
  let i := getShardIdx c key
  { c with shards := c.shards.set i (deleteShard (c.shards.getD i emptyShard) key) }

/-- `Clear()`: every shard gets a fresh empty map and size 0. -/
def cacheClear (c : ShardedCache) : ShardedCache :=
  { c with shards := c.shards.map fun _ => emptyShard }

/-- One sequentially executed cache operation, for stating invariants
over all reachable cache states. -/
inductive CacheOp where
  | set (key : Str) (response : DNSResponse) (ttl now : Nat)
  | get (key : Str) (now : Nat)
  | del (key : Str)
  | clear

/-- Apply one operation to the cache state. -/
def applyCacheOp (c : ShardedCache) : CacheOp → ShardedCache
  | .set key response ttl now => cacheSet c key response ttl now
  | .get key now => (cacheGet c key now).2
  | .del key => cacheDelete c key
  | .clear => cacheClear c

/-- Apply a sequence of operations in order. -/
def applyCacheOps (c : ShardedCache) (ops : List CacheOp) : ShardedCache :=
  ops.foldl applyCacheOp c

/-- The sum of the `Size` fields of the entries present in a shard. -/
def sumSizes (entries : List (Str × CacheEntry)) : Int :=
  (entries.map fun p => p.2.size).sum

/-- No key occurs twice in the shard map. -/
def nodupKeys (entries : List (Str × CacheEntry)) : Prop :=
  (entries.map Prod.fst).Nodup

/-! ## Event bus (package `dnsres`, `eventBus`) -/

/-- `ResolverEvent` from the `dnsres` package: the tagged record carried
on the bus. -/
structure ResolverEvent where
  eventType : Str
  time : Int
  hostname : Str
  server : Str
  duration : Int
  error : Str
  addresses : List Str
  consistent : Option Bool
  hostnameCount : Int
  serverCount : Int
  source : Str

/-- One subscriber channel: its buffer capacity (from `make(chan
ResolverEvent, buffer)`) and the events currently buffered. With no
concurrent receiver, a send on the channel succeeds exactly when the
buffer has spare capacity. -/
structure Subscriber where
  capacity : Nat
  buffer : List ResolverEvent

/-- The bus: its current subscriber set. -/
structure EventBus where
  subs : List Subscriber

/-- `subscribe(buffer)`: a buffer hint of at most 0 becomes the default
64; the new subscriber starts with an empty channel. Returns the bus
with the subscriber added. -/
def subscribe (b : EventBus) (buffer : Int) : EventBus × Subscriber :=
  let cap := if buffer ≤ 0 then 64 else buffer
  let sub : Subscriber := { capacity := cap.toNat, buffer := [] }
  ({ subs := b.subs ++ [sub] }, sub)

/-- `publish(event)`: for every subscriber, `select { case ch <- event:
default: }` — enqueue when the channel has spare capacity, otherwise
fall through to `default` and drop the event for that subscriber. The
function is total: the publisher never blocks. -/
def publish (b : EventBus) (event : ResolverEvent) : EventBus :=
  { subs := b.subs.map fun s =>
      if s.buffer.length < s.capacity then
        { s with buffer := s.buffer ++ [event] }
      else
        s }

/-! ## DNS client pool (`dnspool/pool.go`) -/

/-- `dns.Client` as the pool handles it: a holder for a timeout. -/
structure DNSClient where
  timeout : Int
  deriving DecidableEq

/-- `ClientPool`: the per-server client stacks (a Go map whose read on a
missing key yields the empty slice, modelled as a total function), the
stack bound and the configured timeout. -/
structure ClientPool where
  clients : Str → List DNSClient
  maxSize : Int
  timeout : Int

/-- `NewClientPool(maxSize, timeout)`. -/
def newClientPool (maxSize timeout : Int) : ClientPool :=
  { clients := fun _ => [], maxSize := maxSize, timeout := timeout }

/-- The inline normalization at the top of `ClientPool.Get`: `if
!strings.Contains(server, ":") { server = server + ":53" }`. -/
def poolNormalizeServer (server : Str) : Str :=
  if server.contains ':' then server else server ++ [':', '5', '3']

/-- `Get(server)` (lines 31-53): normalize the key, pop the top (last)
client of the stack if non-empty, otherwise construct a new client with
the pool's timeout. (The protocol counter metric is an omitted side
effect.) -/
def ClientPool.get (p : ClientPool) (server : Str) : DNSClient × ClientPool :=
  let server := poolNormalizeServer server
  let clients := p.clients server
  match clients.getLast? with
  | some client =>
    (client,
     { p with clients := fun x => if x = server then clients.dropLast else p.clients x })
  | none => ({ timeout := p.timeout }, p)

/-- `Put(server, client)` (lines 56-70): reset the client's timeout;
push under the caller's (unnormalized) key when the stack is below
`MaxSize`, otherwise drop the client. -/
def ClientPool.put (p : ClientPool) (server : Str) (client : DNSClient) : ClientPool :=
  let client := { client with timeout := p.timeout }
  if (p.clients server).length < p.maxSize then
    { p with clients := fun x => if x = server then p.clients server ++ [client] else p.clients x }
  else
    p

/-! ## DNS server normalization at config load (`config.go`) -/

/-- First index of a character in a string, `bytealg.IndexByteString`. -/
def idxOf (c : Char) : Str → Option Nat
  | [] => none
  | a :: rest => if a = c then some 0 else (idxOf c rest).map (· + 1)

/-- Last index of a character in a string. -/
def lastIdxOf (c : Char) : Str → Option Nat
  | [] => none
  | a :: rest =>
    match lastIdxOf c rest with
    | some i => some (i + 1)
    | none => if a = c then some 0 else none

/-- Success predicate of Go's `net.SplitHostPort(hostport)`, the test
`loadConfig` applies to each configured DNS server. The split succeeds
iff: there is a colon; for a `[`-led string, a `]` exists, is not the
final byte, is followed directly by the last colon, and no stray `[`
after position 0 or `]` after the bracket remains; and for an
unbracketed string, the part before the last colon holds no further
colon and the string holds no brackets. -/
def splitHostPortOk (hostport : Str) : Bool :=
  match lastIdxOf ':' hostport with
  | none => false
  | some i =>
    if hostport.head? = some '[' then
      match idxOf ']' hostport with
      | none => false
      | some e =>
        if e + 1 = hostport.length then false
        else if e + 1 = i then
          !((hostport.drop 1).contains '[') && !((hostport.drop (e + 1)).contains ']')
        else false
    else
      !((hostport.take i).contains ':') &&
      !(hostport.contains '[') && !(hostport.contains ']')

/-- Go's `net.JoinHostPort(host, port)`: a host holding a colon is
bracketed. -/
def joinHostPort (host port : Str) : Str :=
  if host.contains ':' then
    '[' :: host ++ ']' :: ':' :: port
  else
    host ++ ':' :: port

/-- The per-server normalization in `loadConfig` (config.go lines
102-107): servers that `net.SplitHostPort` rejects are rewritten to
`net.JoinHostPort(server, "53")`; accepted servers stay as they are. -/
def configNormalizeServer (server : Str) : Str :=
  if splitHostPortOk server then server else joinHostPort server ['5', '3']

/-- The whole loop over `config.DNSServers`. -/
def normalizeDNSServers (servers : List Str) : List Str :=
  servers.map configNormalizeServer

/-! ## Claim C1: the Allow decision -/

/-- C1: breaker.Allow() returns false iff failures have reached the
threshold and the timeout since the last error has not yet elapsed;
equivalently Allow() returns true exactly when the computed state is
closed or half-open. Both source variants of Allow (the
metrics-instrumented one and the plain one) return the same value. -/
theorem c1_allow_iff (cb : CircuitBreaker) (now : Int) (m : BreakerMetrics) :
    ((cb.allow now m).1 = false ↔
      cb.threshold ≤ cb.failures ∧ now - cb.lastError < cb.timeout) ∧
    ((cb.allow now m).1 = true ↔
      (cb.getState now = ['c', 'l', 'o', 's', 'e', 'd'] ∨
       cb.getState now = ['h', 'a', 'l', 'f', '-', 'o', 'p', 'e', 'n'])) ∧
    (cb.allowPlain now).1 = (cb.allow now m).1 := by
  by_cases h1 : cb.threshold ≤ cb.failures <;>
    by_cases h2 : now - cb.lastError < cb.timeout <;>
      simp [CircuitBreaker.allow, CircuitBreaker.allowPlain, CircuitBreaker.getState, h1, h2]

/-! ## Claim C6: which operations move the failure counter -/

/-- C6 (divergence witness): on a fresh breaker (0 failures, threshold
1), a single Allow() call increments `breaker_failures_total` for the
breaker's server from 0 to 1 — not only RecordFailure() moves the
counter, and the state gauge is not the sole metric output of Allow().
RecordSuccess() likewise increments it. This contradicts the
specification's mandate (the specification itself flags the source as
inconsistent here). -/
theorem c6_failures_counter_moved_outside_recordFailure :
    ((newCircuitBreaker 1 60 ['s']).allow 0 initialBreakerMetrics).2.failuresTotal ['s'] = 1 ∧
    ((newCircuitBreaker 1 60 ['s']).allow 0 initialBreakerMetrics).1 = true ∧
    ((newCircuitBreaker 1 60 ['s']).recordSuccess initialBreakerMetrics).2.failuresTotal ['s'] = 1 := by
  refine ⟨rfl, rfl, rfl⟩

/-! ## Claim C5: non-blocking publish on the event bus -/

/-- C5: publish(event) is a total function that touches every current
subscriber exactly once: a subscriber whose channel has spare capacity
receives the event appended to its buffer; a subscriber whose channel
is full is left exactly as it was (the event is dropped for it). The
subscriber set itself never changes, and the publisher never blocks
(the function is total and defined by one pass over the subscribers). -/
theorem c5_publish_enqueue_or_drop (b : EventBus) (event : ResolverEvent) :
    (publish b event).subs.length = b.subs.length ∧
    ∀ (i : Nat) (h : i < b.subs.length) (h2 : i < (publish b event).subs.length),
      ((b.subs.get ⟨i, h⟩).buffer.length < (b.subs.get ⟨i, h⟩).capacity →
        ((publish b event).subs.get ⟨i, h2⟩).buffer = (b.subs.get ⟨i, h⟩).buffer ++ [event]) ∧
      (¬ (b.subs.get ⟨i, h⟩).buffer.length < (b.subs.get ⟨i, h⟩).capacity →
        (publish b event).subs.get ⟨i, h2⟩ = b.subs.get ⟨i, h⟩) := by
  refine ⟨by simp [publish], ?_⟩
  intro i h h2
  constructor <;> intro hc <;>
    simp only [List.get_eq_getElem] at hc ⊢ <;>
      simp [publish, List.getElem_map, hc]

/-- A subscriber with spare capacity next to a full one. -/
def busW : EventBus :=
  { subs := [{ capacity := 2, buffer := [] }, { capacity := 0, buffer := [] }] }

/-- A concrete event for the bus witness. -/
def evW : ResolverEvent :=
  { eventType := [], time := 0, hostname := [], server := [], duration := 0, error := [],
    addresses := [], consistent := none, hostnameCount := 0, serverCount := 0, source := [] }

/-- C5 witness: on the concrete bus, the subscriber with spare capacity
receives the event and the full subscriber is left unchanged. -/
theorem c5_publish_witness :
    ((publish busW evW).subs.get ⟨0, by decide⟩).buffer =
      (busW.subs.get ⟨0, by decide⟩).buffer ++ [evW] ∧
    (publish busW evW).subs.get ⟨1, by decide⟩ = busW.subs.get ⟨1, by decide⟩ :=
  ⟨((c5_publish_enqueue_or_drop busW evW).2 0 (by decide) (by decide)).1 (by decide),
   ((c5_publish_enqueue_or_drop busW evW).2 1 (by decide) (by decide)).2 (by decide)⟩

/-! ## Claim C2: the consistency predicate -/

/-- C2 (amended): CompareResponses returns true on lists of length at
most one, and on `first :: rest` it returns true iff every response in
`rest` has an address list of the same length as the first response's
and each of its addresses occurs among the first response's addresses.
(This coincides with pairwise address-set equality only when the
address lists are duplicate-free; see the counterexample.) -/
theorem c2_compare_characterization (responses : List DNSResponse) :
    (responses.length ≤ 1 → CompareResponses responses = true) ∧
    ∀ first rest, responses = first :: rest →
      (CompareResponses responses = true ↔
        ∀ r ∈ rest, r.addresses.length = first.addresses.length ∧
          ∀ addr ∈ r.addresses, addr ∈ first.addresses) := by
  constructor
  · intro h
    unfold CompareResponses
    simp [h]
  · rintro first rest rfl
    cases rest with
    | nil => simp [CompareResponses]
    | cons r2 rs =>
      unfold CompareResponses
      simp [List.all_eq_true, List.contains, List.elem_iff, and_assoc]

/-- First response of the C2 counterexample: addresses `[a, b]`. -/
def respAB : DNSResponse :=
  { server := [], hostname := [], addresses := [['a'], ['b']], response := ⟨[], []⟩,
    recordCount := fun _ => 0, ttl := 0, size := 0, dnssec := false, edns := false,
    protocol := [], duration := 0 }

/-- Second response of the C2 counterexample: addresses `[a, a]` — same
length, a subset of `[a, b]`, but a different address set. -/
def respAA : DNSResponse :=
  { server := [], hostname := [], addresses := [['a'], ['a']], response := ⟨[], []⟩,
    recordCount := fun _ => 0, ttl := 0, size := 0, dnssec := false, edns := false,
    protocol := [], duration := 0 }

/-- C2 counterexample: CompareResponses accepts the pair
(`[a, b]`, `[a, a]`) although the two address sets differ ({a, b}
versus {a}), so CompareResponses is not the pairwise
set-equality-with-length predicate of the claim. -/
theorem c2_counterexample :
    CompareResponses [respAB, respAA] = true ∧
    specConsistent [respAB, respAA] = false := by
  refine ⟨rfl, rfl⟩

/-- C2 witness: the characterization applied to the concrete pair. -/
theorem c2_compare_witness :
    CompareResponses [respAB, respAA] = true ↔
      ∀ r ∈ [respAA], r.addresses.length = respAB.addresses.length ∧
        ∀ addr ∈ r.addresses, addr ∈ respAB.addresses :=
  (c2_compare_characterization [respAB, respAA]).2 respAB [respAA] rfl

/-! ## Claim C3: the derived ttl field -/

/-- The TTL fold of `getMinTTL` never exceeds its starting value. -/
theorem ttlFold_le_init (l : List RR) (init : Nat) :
    l.foldl (fun minTTL rr => if rr.ttl < minTTL then rr.ttl else minTTL) init ≤ init := by
  induction l generalizing init with
  | nil => exact Nat.le_refl _
  | cons a t ih =>
    simp only [List.foldl_cons]
    by_cases hlt : a.ttl < init
    · simp only [hlt, if_pos]
      exact Nat.le_trans (ih a.ttl) (Nat.le_of_lt hlt)
    · simp only [hlt, if_neg, if_false]
      exact ih init

/-- The TTL fold of `getMinTTL` is a lower bound of every folded TTL. -/
theorem ttlFold_le_mem (l : List RR) (init : Nat) :
    ∀ rr ∈ l, l.foldl (fun minTTL rr => if rr.ttl < minTTL then rr.ttl else minTTL) init ≤ rr.ttl := by
  induction l generalizing init with
  | nil => exact fun rr h => absurd h (List.not_mem_nil rr)
  | cons a t ih =>
    intro rr hrr
    simp only [List.foldl_cons]
    rcases List.mem_cons.mp hrr with h | h
    · subst h
      refine Nat.le_trans (ttlFold_le_init t _) ?_
      by_cases hlt : rr.ttl < init
      · simp [hlt]
      · simp only [hlt, if_false]
        omega
    · exact ih _ rr h

/-- The TTL fold of `getMinTTL` returns its starting value or a folded
TTL. -/
theorem ttlFold_attained (l : List RR) (init : Nat) :
    l.foldl (fun minTTL rr => if rr.ttl < minTTL then rr.ttl else minTTL) init = init ∨
      ∃ rr ∈ l, l.foldl (fun minTTL rr => if rr.ttl < minTTL then rr.ttl else minTTL) init = rr.ttl := by
  induction l generalizing init with
  | nil => exact Or.inl rfl
  | cons a t ih =>
    simp only [List.foldl_cons]
    by_cases hlt : a.ttl < init
    · simp only [hlt, if_pos]
      rcases ih a.ttl with h | ⟨rr, hm, he⟩
      · exact Or.inr ⟨a, List.mem_cons_self a t, h⟩
      · exact Or.inr ⟨rr, List.mem_cons_of_mem a hm, he⟩
    · simp only [hlt, if_neg, if_false]
      rcases ih init with h | ⟨rr, hm, he⟩
      · exact Or.inl h
      · exact Or.inr ⟨rr, List.mem_cons_of_mem a hm, he⟩

/-- The answer loop of `AnalyzeResponse` leaves the last record's TTL in
the TTL slot (or the initial value on an empty list). -/
theorem analyzeAnswerLoop_ttl_aux (l : List RR) (acc : (Nat → Nat) × Nat) :
    (l.foldl
      (fun (acc : (Nat → Nat) × Nat) rr =>
        (fun t => if t = rr.rrtype then acc.1 t + 1 else acc.1 t, rr.ttl))
      acc).2 = (l.map RR.ttl).getLastD acc.2 := by
  induction l generalizing acc with
  | nil => rfl
  | cons a t ih =>
    simp only [List.foldl_cons, List.map_cons, List.getLastD_cons]
    exact ih _

/-- C3 (amended): the resolve pipeline's `getMinTTL` does return the
minimum TTL over the answer section (0 when the answer is empty), but
`AnalyzeResponse` stores the TTL of the *last* answer record into the
DNSResponse ttl field (0 when the answer is empty); the two code paths
agree only when the last record happens to carry the minimal TTL. -/
theorem c3_ttl_paths (server hostname : Str) (msg : Msg) (size : Int)
    (protocol : Str) (duration : Int) :
    (msg.answer = [] → getMinTTL msg = 0) ∧
    (∀ rr ∈ msg.answer, getMinTTL msg ≤ rr.ttl) ∧
    (msg.answer ≠ [] → ∃ rr ∈ msg.answer, getMinTTL msg = rr.ttl) ∧
    (AnalyzeResponse server hostname msg size protocol duration).ttl =
      (msg.answer.map RR.ttl).getLastD 0 := by
  refine ⟨?_, ?_, ?_, ?_⟩
  · intro h
    unfold getMinTTL
    rw [h]
  · intro rr hrr
    unfold getMinTTL
    cases h : msg.answer with
    | nil => rw [h] at hrr; exact absurd hrr (List.not_mem_nil rr)
    | cons first t =>
      rw [h] at hrr
      exact ttlFold_le_mem (first :: t) first.ttl rr hrr
  · intro hne
    unfold getMinTTL
    cases h : msg.answer with
    | nil => exact absurd h hne
    | cons first t =>
      rcases ttlFold_attained (first :: t) first.ttl with he | ⟨rr, hm, he⟩
      · exact ⟨first, List.mem_cons_self first t, he⟩
      · exact ⟨rr, hm, he⟩
  · show (analyzeAnswerLoop msg.answer).2 = _
    unfold analyzeAnswerLoop
    exact analyzeAnswerLoop_ttl_aux msg.answer (fun _ => 0, 0)

/-- A message whose answer records carry TTLs 100 then 300: minimum 100,
last 300. -/
def msg100300 : Msg := ⟨[⟨1, 100⟩, ⟨1, 300⟩], []⟩

/-- C3 counterexample: on an answer section with TTLs [100, 300], the
resolve pipeline derives ttl = 100 (the minimum) while AnalyzeResponse
stores ttl = 300 (the last record), so the ttl field does not equal the
minimum TTL on every constructing code path. -/
theorem c3_counterexample :
    getMinTTL msg100300 = 100 ∧
    (AnalyzeResponse [] [] msg100300 0 [] 0).ttl = 300 ∧
    (AnalyzeResponse [] [] msg100300 0 [] 0).ttl ≠ getMinTTL msg100300 := by
  refine ⟨rfl, rfl, by decide⟩

/-- C3 witness: the amended theorem applied to an empty answer and to
the concrete two-record answer. -/
theorem c3_ttl_witness :
    getMinTTL ⟨[], []⟩ = 0 ∧ ∃ rr ∈ msg100300.answer, getMinTTL msg100300 = rr.ttl :=
  ⟨(c3_ttl_paths [] [] ⟨[], []⟩ 0 [] 0).1 rfl,
   (c3_ttl_paths [] [] msg100300 0 [] 0).2.2.1 (by decide)⟩

/-! ## Claim C8: DNS server normalization -/

/-- A string that does not contain a character has no last index for
it. -/
theorem lastIdxOf_eq_none (c : Char) (s : Str) (h : s.contains c = false) :
    lastIdxOf c s = none := by
  induction s with
  | nil => rfl
  | cons a t ih =>
    rw [List.contains_cons] at h
    simp only [Bool.or_eq_false_iff] at h
    unfold lastIdxOf
    rw [ih h.2]
    have : ¬ a = c := by
      intro he
      rw [he] at h
      simp at h
    simp [this]

/-- C8 (amended): a server string containing no colon gets `:53`
appended by both normalizations (config load and pool Get); a server
string that `net.SplitHostPort` accepts is left unchanged at config
load; any server string containing a colon is left unchanged by pool
Get. (The two normalizations disagree on colon-bearing strings without
a port, such as a bare IPv6 address; see the counterexample.) -/
theorem c8_normalization (server : Str) :
    (server.contains ':' = false →
      configNormalizeServer server = server ++ [':', '5', '3'] ∧
      poolNormalizeServer server = server ++ [':', '5', '3']) ∧
    (splitHostPortOk server = true → configNormalizeServer server = server) ∧
    (server.contains ':' = true → poolNormalizeServer server = server) := by
  refine ⟨?_, ?_, ?_⟩
  · intro h
    have hsplit : splitHostPortOk server = false := by
      unfold splitHostPortOk
      rw [lastIdxOf_eq_none ':' server h]
    constructor
    · unfold configNormalizeServer
      rw [hsplit]
      simp only [Bool.false_eq_true, if_false]
      unfold joinHostPort
      rw [h]
      rfl
    · unfold poolNormalizeServer
      rw [h]
      rfl
  · intro h
    unfold configNormalizeServer
    rw [h]
    rfl
  · intro h
    unfold poolNormalizeServer
    rw [h]
    rfl

/-- C8 counterexample: the bare IPv6 server string `::1` has no port
(`net.SplitHostPort` rejects it), yet pool Get leaves it unchanged
instead of appending `:53`, and config load rewrites it to `[::1]:53`
rather than appending `:53`; so the two normalizations neither agree
nor implement "append `:53` to every string without a port". -/
theorem c8_counterexample :
    splitHostPortOk [':', ':', '1'] = false ∧
    poolNormalizeServer [':', ':', '1'] = [':', ':', '1'] ∧
    configNormalizeServer [':', ':', '1'] = ['[', ':', ':', '1', ']', ':', '5', '3'] := by
  refine ⟨rfl, rfl, rfl⟩

/-- A portless server string for the C8 witness. -/
def srvBare : Str := ['9', '.', '9', '.', '9', '.', '9']

/-- The same server with a port for the C8 witness. -/
def srvPort : Str := ['9', '.', '9', '.', '9', '.', '9', ':', '5', '3']

/-- C8 witness: the amended theorem applied to `9.9.9.9` (both
normalizations append `:53`) and `9.9.9.9:53` (both leave it
unchanged). -/
theorem c8_normalization_witness :
    (configNormalizeServer srvBare = srvBare ++ [':', '5', '3'] ∧
     poolNormalizeServer srvBare = srvBare ++ [':', '5', '3']) ∧
    configNormalizeServer srvPort = srvPort ∧
    poolNormalizeServer srvPort = srvPort :=
  ⟨(c8_normalization srvBare).1 (by decide),
   (c8_normalization srvPort).2.1 (by decide),
   (c8_normalization srvPort).2.2 (by decide)⟩

/-! ## Claim C10: pool Put and Get disagree on the key -/

/-- Put only ever touches the caller's (unnormalized) key. -/
theorem put_clients_other_key (p : ClientPool) (server : Str) (client : DNSClient)
    (x : Str) (hx : x ≠ server) :
    (p.put server client).clients x = p.clients x := by
  unfold ClientPool.put
  by_cases hsz : (p.clients server).length < p.maxSize <;> simp [hsz, hx]

/-- Put never changes the pool's configured timeout. -/
theorem put_timeout (p : ClientPool) (server : Str) (client : DNSClient) :
    (p.put server client).timeout = p.timeout := by
  unfold ClientPool.put
  by_cases hsz : (p.clients server).length < p.maxSize <;> simp [hsz]

/-- A string with `：53` appended is never the string itself. -/
theorem append_port_ne (server : Str) : server ++ [':', '5', '3'] ≠ server := by
  intro he
  have := congrArg List.length he
  simp at this

/-- Get of two pools that agree on the looked-up stack and on the
timeout returns the same client. -/
theorem get_congr (p q : ClientPool) (server : Str)
    (hs : p.clients (poolNormalizeServer server) = q.clients (poolNormalizeServer server))
    (ht : p.timeout = q.timeout) :
    (p.get server).1 = (q.get server).1 := by
  unfold ClientPool.get
  simp only []
  rw [hs, ht]
  cases (q.clients (poolNormalizeServer server)).getLast? <;> rfl

/-- C10: for a server string containing no colon, Get normalizes the
key to `server:53` while Put stores under the bare key, so a Put is
invisible to a following Get: the Get returns the same client it would
have returned without the Put, the stack under the normalized key is
untouched by the Put, and when that stack is empty the Get constructs a
new client (with the pool's timeout) rather than returning the one ever
stored by Put. -/
theorem c10_put_invisible_to_get (p : ClientPool) (server : Str) (client : DNSClient)
    (h : server.contains ':' = false) :
    ((p.put server client).get server).1 = (p.get server).1 ∧
    (p.put server client).clients (server ++ [':', '5', '3']) =
      p.clients (server ++ [':', '5', '3']) ∧
    (p.clients (server ++ [':', '5', '3']) = [] →
      ((p.put server client).get server).1 = { timeout := p.timeout }) := by
  have hnorm : poolNormalizeServer server = server ++ [':', '5', '3'] := by
    unfold poolNormalizeServer
    rw [h]
    rfl
  have hother : (p.put server client).clients (server ++ [':', '5', '3']) =
      p.clients (server ++ [':', '5', '3']) :=
    put_clients_other_key p server client _ (append_port_ne server)
  have hfst : ((p.put server client).get server).1 = (p.get server).1 := by
    refine get_congr _ _ _ ?_ (put_timeout p server client)
    rw [hnorm]
    exact hother
  refine ⟨hfst, hother, ?_⟩
  intro hempty
  rw [hfst]
  unfold ClientPool.get
  rw [hnorm]
  simp [hempty]

/-- C10 witness: on a fresh pool, putting a client under the bare key
`d` and getting `d` yields a newly constructed client with the pool's
timeout, exactly as a Get without the Put would. -/
theorem c10_put_get_witness :
    (((newClientPool 4 7).put ['d'] ⟨9⟩).get ['d']).1 = ((newClientPool 4 7).get ['d']).1 ∧
    (((newClientPool 4 7).put ['d'] ⟨9⟩).get ['d']).1 = ⟨7⟩ :=
  ⟨(c10_put_invisible_to_get (newClientPool 4 7) ['d'] ⟨9⟩ (by decide)).1,
   (c10_put_invisible_to_get (newClientPool 4 7) ['d'] ⟨9⟩ (by decide)).2.2 rfl⟩

/-! ## Claim C7: Set followed by Get within ttl -/

/-- The shard of a key, as both Set and Get select it. -/
def shardOf (c : ShardedCache) (key : Str) : CacheShard :=
  c.shards.getD (getShardIdx c key) emptyShard

/-- A truncated remainder by a positive modulus, taken to `Nat`, is a
valid index below the modulus. -/
theorem tmod_toNat_lt (h n : Int) (hn : 0 < n) : (h.tmod n).toNat < n.toNat := by
  have := Int.tmod_lt_of_pos h hn
  omega

/-- The shard index is a valid index into a well-formed cache's shard
slice. -/
theorem getShardIdx_lt (c : ShardedCache) (key : Str)
    (hlen : c.shards.length = c.numShards.toNat) (hpos : 0 < c.shards.length) :
    getShardIdx c key < c.shards.length := by
  have hn : 0 < c.numShards := by omega
  rw [hlen]
  exact tmod_toNat_lt _ _ hn

/-- Whatever branches Set takes internally, the resulting shard map is
the new entry in front of the pre-insertion map with the key's old
binding removed. -/
theorem setShard_entries (quota : Int) (shard : CacheShard) (key : Str)
    (response : DNSResponse) (ttl now : Nat) :
    (setShard quota shard key response ttl now).entries =
      (key, ⟨response, now + ttl, estimateSize response⟩) ::
        eraseKey (if quota < shard.size + estimateSize response then
                    (evictOldest shard).entries
                  else shard.entries) key := by
  unfold setShard
  by_cases hq : quota < shard.size + estimateSize response
  · simp only [hq, if_true]
    cases hl : lookupEntry (evictOldest shard).entries key <;> simp [hl]
  · simp only [hq, if_false]
    cases hl : lookupEntry shard.entries key <;> simp [hl]

/-- Go-level `setShard` size bookkeeping is irrelevant here; only the
lookup of the freshly inserted binding matters. -/
theorem lookupEntry_insert_self (es : List (Str × CacheEntry)) (key : Str) (e : CacheEntry) :
    lookupEntry ((key, e) :: es) key = some e := by
  unfold lookupEntry
  simp

/-- C7: a Set(key, v, ttl) at time `now` followed by a Get(key) at any
time `now2` within the ttl window returns exactly the stored
DNSResponse v (the entry's aliased response), i.e. a hit. -/
theorem c7_set_then_get (c : ShardedCache) (key : Str) (v : DNSResponse)
    (ttl now now2 : Nat)
    (hlen : c.shards.length = c.numShards.toNat) (hpos : 0 < c.shards.length)
    (_httl : 0 < ttl) (hwin : now2 ≤ now + ttl) :
    (cacheGet (cacheSet c key v ttl now) key now2).1 = some v := by
  have hidx : getShardIdx c key < c.shards.length :=
    getShardIdx_lt c key hlen hpos
  have hsame : getShardIdx (cacheSet c key v ttl now) key = getShardIdx c key := rfl
  unfold cacheGet
  simp only [hsame]
  have hshard : (cacheSet c key v ttl now).shards.getD (getShardIdx c key) emptyShard =
      setShard (shardQuota c) (c.shards.getD (getShardIdx c key) emptyShard) key v ttl now := by
    unfold cacheSet
    rw [List.getD_eq_getElem?_getD, List.getElem?_set_self hidx]
    rfl
  rw [hshard]
  unfold getShard
  rw [setShard_entries, lookupEntry_insert_self]
  have hexp : ¬ ((⟨v, now + ttl, estimateSize v⟩ : CacheEntry).expires < now2) := by
    simp only []
    omega
  simp only [hexp, if_neg, if_false]

/-- A concrete response for the cache witnesses. -/
def respCacheW : DNSResponse :=
  { server := ['8', '.', '8', '.', '8', '.', '8'], hostname := ['e', 'x'],
    addresses := [['1', '.', '2', '.', '3', '.', '4']], response := ⟨[], []⟩,
    recordCount := fun _ => 0, ttl := 60, size := 0, dnssec := false, edns := false,
    protocol := [], duration := 0 }

/-- C7 witness: on a fresh 4-shard cache, Set then Get within the ttl
window returns the stored response. -/
theorem c7_set_then_get_witness :
    (cacheGet (cacheSet (newShardedCache 1024 4) ['e', 'x'] respCacheW 60 10) ['e', 'x'] 50).1 =
      some respCacheW :=
  c7_set_then_get (newShardedCache 1024 4) ['e', 'x'] respCacheW 60 10 50
    (by decide) (by decide) (by decide) (by decide)

/-! ## Claim C4: eviction on an over-quota Set -/

/-- Invariant of the `evictOldest` scan: once the accumulator holds a
nonempty key, and while every scanned key is nonempty, the fold ends on
the accumulator or on some scanned entry, never exceeds the
accumulator's time, and is a lower bound of every scanned expiry. -/
theorem selectOldest_foldl_spec (es : List (Str × CacheEntry)) :
    ∀ (k0 : Str) (t0 : Nat), k0 ≠ [] → (∀ p ∈ es, p.1 ≠ []) →
      (es.foldl
        (fun acc p => if acc.1 = [] ∨ p.2.expires < acc.2 then (p.1, p.2.expires) else acc)
        (k0, t0)).2 ≤ t0 ∧
      (es.foldl
        (fun acc p => if acc.1 = [] ∨ p.2.expires < acc.2 then (p.1, p.2.expires) else acc)
        (k0, t0) = (k0, t0) ∨
        ∃ p ∈ es, es.foldl
          (fun acc p => if acc.1 = [] ∨ p.2.expires < acc.2 then (p.1, p.2.expires) else acc)
          (k0, t0) = (p.1, p.2.expires)) ∧
      ∀ q ∈ es, (es.foldl
        (fun acc p => if acc.1 = [] ∨ p.2.expires < acc.2 then (p.1, p.2.expires) else acc)
        (k0, t0)).2 ≤ q.2.expires := by
  induction es with
  | nil =>
    intro k0 t0 _ _
    exact ⟨Nat.le_refl _, Or.inl rfl, fun q hq => absurd hq (List.not_mem_nil q)⟩
  | cons a t ih =>
    intro k0 t0 hk0 hkeys
    have ha : a.1 ≠ [] := hkeys a (List.mem_cons_self a t)
    have hkeys' : ∀ p ∈ t, p.1 ≠ [] := fun p hp => hkeys p (List.mem_cons_of_mem a hp)
    simp only [List.foldl_cons]
    by_cases hc : a.2.expires < t0
    · have hstep : (if k0 = [] ∨ a.2.expires < t0 then (a.1, a.2.expires) else (k0, t0)) =
          (a.1, a.2.expires) := by simp [hc]
      rw [hstep]
      obtain ⟨h1, h2, h3⟩ := ih a.1 a.2.expires ha hkeys'
      refine ⟨Nat.le_trans h1 (Nat.le_of_lt hc), ?_, ?_⟩
      · rcases h2 with he | ⟨p, hp, he⟩
        · exact Or.inr ⟨a, List.mem_cons_self a t, he⟩
        · exact Or.inr ⟨p, List.mem_cons_of_mem a hp, he⟩
      · intro q hq
        rcases List.mem_cons.mp hq with rfl | hq'
        · exact h1
        · exact h3 q hq'
    · have hstep : (if k0 = [] ∨ a.2.expires < t0 then (a.1, a.2.expires) else (k0, t0)) =
          (k0, t0) := by simp [hk0, hc]
      rw [hstep]
      obtain ⟨h1, h2, h3⟩ := ih k0 t0 hk0 hkeys'
      refine ⟨h1, ?_, ?_⟩
      · rcases h2 with he | ⟨p, hp, he⟩
        · exact Or.inl he
        · exact Or.inr ⟨p, List.mem_cons_of_mem a hp, he⟩
      · intro q hq
        rcases List.mem_cons.mp hq with rfl | hq'
        · exact Nat.le_trans h1 (Nat.le_of_not_lt hc)
        · exact h3 q hq'

/-- On a nonempty shard map with only nonempty keys, the scan selects an
entry with minimal expiry. -/
theorem selectOldest_spec (es : List (Str × CacheEntry)) (hne : es ≠ [])
    (hkeys : ∀ p ∈ es, p.1 ≠ []) :
    ∃ p ∈ es, selectOldest es = (p.1, p.2.expires) ∧
      ∀ q ∈ es, p.2.expires ≤ q.2.expires := by
  cases es with
  | nil => exact absurd rfl hne
  | cons a t =>
    have ha : a.1 ≠ [] := hkeys a (List.mem_cons_self a t)
    have hkeys' : ∀ p ∈ t, p.1 ≠ [] := fun p hp => hkeys p (List.mem_cons_of_mem a hp)
    have hfold : selectOldest (a :: t) = t.foldl
        (fun acc p => if acc.1 = [] ∨ p.2.expires < acc.2 then (p.1, p.2.expires) else acc)
        (a.1, a.2.expires) := by
      unfold selectOldest
      rw [List.foldl_cons]
      simp
    rw [hfold]
    obtain ⟨h1, h2, h3⟩ := selectOldest_foldl_spec t a.1 a.2.expires ha hkeys'
    rcases h2 with he | ⟨p, hp, he⟩
    · refine ⟨a, List.mem_cons_self a t, he, ?_⟩
      intro q hq
      rcases List.mem_cons.mp hq with rfl | hq'
      · exact Nat.le_refl _
      · have := h3 q hq'
        rw [he] at this
        exact this
    · have h2e : (t.foldl
          (fun acc p => if acc.1 = [] ∨ p.2.expires < acc.2 then (p.1, p.2.expires) else acc)
          (a.1, a.2.expires)).2 = p.2.expires := by rw [he]
      refine ⟨p, List.mem_cons_of_mem a hp, he, ?_⟩
      intro q hq
      rcases List.mem_cons.mp hq with rfl | hq'
      · rw [← h2e]
        exact h1
      · have := h3 q hq'
        rw [h2e] at this
        exact this

/-- Looking up the key of a member of a duplicate-free shard map finds
exactly that member's entry. -/
theorem lookup_of_mem_nodup {es : List (Str × CacheEntry)} (hnd : nodupKeys es)
    {p : Str × CacheEntry} (hp : p ∈ es) : lookupEntry es p.1 = some p.2 := by
  induction es with
  | nil => exact absurd hp (List.not_mem_nil p)
  | cons a t ih =>
    unfold nodupKeys at hnd
    rw [List.map_cons, List.nodup_cons] at hnd
    rcases List.mem_cons.mp hp with rfl | hp'
    · unfold lookupEntry
      simp
    · unfold lookupEntry
      have hne : ¬ a.1 = p.1 := by
        intro he
        exact hnd.1 (he ▸ List.mem_map_of_mem Prod.fst hp')
      simp only [hne, if_false]
      exact ih hnd.2 hp'

/-- On a nonempty shard map with only nonempty, duplicate-free keys,
`evictOldest` removes an entry with minimal expiry and charges exactly
its size. -/
theorem evictOldest_spec (sh : CacheShard) (hne : sh.entries ≠ [])
    (hkeys : ∀ p ∈ sh.entries, p.1 ≠ []) (hnd : nodupKeys sh.entries) :
    ∃ p ∈ sh.entries, (∀ q ∈ sh.entries, p.2.expires ≤ q.2.expires) ∧
      (evictOldest sh).entries = eraseKey sh.entries p.1 ∧
      (evictOldest sh).size = sh.size - p.2.size := by
  obtain ⟨p, hp, hsel, hmin⟩ := selectOldest_spec sh.entries hne hkeys
  have hkp : p.1 ≠ [] := hkeys p hp
  have hlook : lookupEntry sh.entries p.1 = some p.2 := lookup_of_mem_nodup hnd hp
  refine ⟨p, hp, hmin, ?_, ?_⟩ <;>
    · unfold evictOldest
      rw [hsel]
      simp [hkp, hlook]

/-- C4 (amended): on a Set whose key routes to a shard with
`shard.size + size` over the per-shard quota, provided the shard map is
nonempty, duplicate-free and holds no empty-string key, one eviction
occurs before the insertion, the evicted entry has the earliest expiry
in the shard, and the new entry is admitted — in particular an entry
whose size alone exceeds the quota is admitted after the single
previous entry is evicted. (With an empty-string key present, the
`oldestKey == ""` sentinel of evictOldest can skip the eviction or
select a non-earliest entry; see the counterexample.) -/
theorem c4_set_eviction (c : ShardedCache) (key : Str) (v : DNSResponse) (ttl now : Nat)
    (hidx : getShardIdx c key < c.shards.length)
    (hq : shardQuota c < (shardOf c key).size + estimateSize v)
    (hne : (shardOf c key).entries ≠ [])
    (hnd : nodupKeys (shardOf c key).entries)
    (hkeys : ∀ p ∈ (shardOf c key).entries, p.1 ≠ []) :
    ∃ p ∈ (shardOf c key).entries,
      (∀ q ∈ (shardOf c key).entries, p.2.expires ≤ q.2.expires) ∧
      (shardOf (cacheSet c key v ttl now) key).entries =
        (key, ⟨v, now + ttl, estimateSize v⟩) ::
          eraseKey (eraseKey (shardOf c key).entries p.1) key ∧
      lookupEntry (shardOf (cacheSet c key v ttl now) key).entries key =
        some ⟨v, now + ttl, estimateSize v⟩ := by
  obtain ⟨p, hp, hmin, hent, hsz⟩ := evictOldest_spec (shardOf c key) hne hkeys hnd
  have hshard : shardOf (cacheSet c key v ttl now) key =
      setShard (shardQuota c) (shardOf c key) key v ttl now := by
    show (c.shards.set (getShardIdx c key)
        (setShard (shardQuota c) (c.shards.getD (getShardIdx c key) emptyShard) key v ttl
          now)).getD (getShardIdx c key) emptyShard = _
    rw [List.getD_eq_getElem?_getD, List.getElem?_set_self hidx]
    rfl
  have hents : (shardOf (cacheSet c key v ttl now) key).entries =
      (key, ⟨v, now + ttl, estimateSize v⟩) ::
        eraseKey (eraseKey (shardOf c key).entries p.1) key := by
    rw [hshard, setShard_entries, if_pos hq, hent]
  refine ⟨p, hp, hmin, hents, ?_⟩
  rw [hents]
  exact lookupEntry_insert_self _ key _

/-- A shard holding one entry of size 3 under the nonempty key `o`. -/
def shardW4 : CacheShard :=
  { entries := [(['o'], ⟨respCacheW, 5, 3⟩)], size := 3 }

/-- A one-shard cache of capacity 10 holding `shardW4`. -/
def cW4 : ShardedCache := { shards := [shardW4], numShards := 1, maxSize := 10 }

/-- C4 witness: inserting `respCacheW` (size 16, alone over the quota
10) into the one-entry shard evicts the single previous entry (the one
with the earliest expiry) and admits the new entry. -/
theorem c4_set_eviction_witness :
    ∃ p ∈ (shardOf cW4 ['k']).entries,
      (∀ q ∈ (shardOf cW4 ['k']).entries, p.2.expires ≤ q.2.expires) ∧
      (shardOf (cacheSet cW4 ['k'] respCacheW 60 0) ['k']).entries =
        (['k'], ⟨respCacheW, 0 + 60, estimateSize respCacheW⟩) ::
          eraseKey (eraseKey (shardOf cW4 ['k']).entries p.1) ['k'] ∧
      lookupEntry (shardOf (cacheSet cW4 ['k'] respCacheW 60 0) ['k']).entries ['k'] =
        some ⟨respCacheW, 0 + 60, estimateSize respCacheW⟩ :=
  c4_set_eviction cW4 ['k'] respCacheW 60 0 (by decide) (by decide)
    (List.cons_ne_nil _ _) (by unfold nodupKeys; decide) (by decide)

/-- A response of size 2 (server `ab`). -/
def respTiny : DNSResponse :=
  { server := ['a', 'b'], hostname := [], addresses := [], response := ⟨[], []⟩,
    recordCount := fun _ => 0, ttl := 0, size := 0, dnssec := false, edns := false,
    protocol := [], duration := 0 }

/-- A response of size 9 (server `aaaaaaaaa`). -/
def respBig : DNSResponse :=
  { server := ['a', 'a', 'a', 'a', 'a', 'a', 'a', 'a', 'a'], hostname := [], addresses := [],
    response := ⟨[], []⟩, recordCount := fun _ => 0, ttl := 0, size := 0, dnssec := false,
    edns := false, protocol := [], duration := 0 }

/-- A one-shard cache of capacity 10 after one Set under the
empty-string key (reachable from `newShardedCache`). -/
def cEm1 : ShardedCache := cacheSet (newShardedCache 10 1) [] respTiny 60 0

/-- The same cache after a second, over-quota Set under key `k`. -/
def cEm2 : ShardedCache := cacheSet cEm1 ['k'] respBig 60 0

/-- C4 counterexample: the second Set runs with
`shard.size + size = 2 + 9` over the quota 10 on a nonempty shard, yet
no entry is evicted: the empty-string key trips the `oldestKey == ""`
sentinel of evictOldest, the previous entry survives and the shard ends
with both entries. So the claim "an eviction occurs and the evicted
entry has the earliest expiry" fails as stated for every cache state. -/
theorem c4_counterexample :
    shardQuota cEm1 < (shardOf cEm1 ['k']).size + estimateSize respBig ∧
    (shardOf cEm1 ['k']).entries.length = 1 ∧
    (shardOf cEm2 ['k']).entries.length = 2 ∧
    (lookupEntry (shardOf cEm2 ['k']).entries []).isSome = true := by
  refine ⟨by decide, by decide, by decide, by decide⟩

/-! ## Claim C9: shard size accounting -/

/-- `estimateSize` is a sum of lengths, hence nonnegative. -/
theorem estimateSize_nonneg (v : DNSResponse) : 0 ≤ estimateSize v := by
  unfold estimateSize
  have haux : ∀ (l : List Str) (i : Int), 0 ≤ i →
      0 ≤ l.foldl (fun size addr => size + (utf8Len addr : Int)) i := by
    intro l
    induction l with
    | nil => exact fun i h => h
    | cons a t ih =>
      intro i h
      rw [List.foldl_cons]
      refine ih _ ?_
      have := Int.natCast_nonneg (utf8Len a)
      omega
  refine haux _ _ ?_
  have h1 := Int.natCast_nonneg (utf8Len v.server)
  have h2 := Int.natCast_nonneg (utf8Len v.hostname)
  omega

/-- Removing the binding that `lookupEntry` finds lowers the size sum by
exactly that entry's size. -/
theorem sumSizes_erase (es : List (Str × CacheEntry)) (k : Str) (e : CacheEntry)
    (h : lookupEntry es k = some e) :
    sumSizes (eraseKey es k) = sumSizes es - e.size := by
  induction es with
  | nil => simp [lookupEntry] at h
  | cons a t ih =>
    unfold lookupEntry at h
    unfold eraseKey
    by_cases he : a.1 = k
    · rw [if_pos he] at h ⊢
      have ha2 : a.2 = e := by injection h
      unfold sumSizes
      rw [List.map_cons, List.sum_cons, ha2]
      omega
    · rw [if_neg he] at h ⊢
      unfold sumSizes at ih ⊢
      rw [List.map_cons, List.sum_cons, List.map_cons, List.sum_cons, ih h]
      omega

/-- Erasing an absent key is the identity. -/
theorem eraseKey_of_lookup_none (es : List (Str × CacheEntry)) (k : Str)
    (h : lookupEntry es k = none) : eraseKey es k = es := by
  induction es with
  | nil => rfl
  | cons a t ih =>
    unfold lookupEntry at h
    unfold eraseKey
    by_cases he : a.1 = k
    · rw [if_pos he] at h
      cases h
    · rw [if_neg he] at h ⊢
      rw [ih h]

/-- `eraseKey` yields a sublist of the shard map. -/
theorem eraseKey_sublist (es : List (Str × CacheEntry)) (k : Str) :
    (eraseKey es k).Sublist es := by
  induction es with
  | nil => simp [eraseKey]
  | cons a t ih =>
    unfold eraseKey
    by_cases he : a.1 = k
    · rw [if_pos he]
      exact List.sublist_cons_self a t
    · rw [if_neg he]
      exact List.Sublist.cons₂ a ih

/-- Members of the erased map were members of the map. -/
theorem mem_of_mem_eraseKey {es : List (Str × CacheEntry)} {k : Str}
    {p : Str × CacheEntry} (h : p ∈ eraseKey es k) : p ∈ es :=
  List.Sublist.mem h (eraseKey_sublist es k)

/-- `eraseKey` preserves key uniqueness. -/
theorem nodupKeys_erase {es : List (Str × CacheEntry)} (k : Str) (hnd : nodupKeys es) :
    nodupKeys (eraseKey es k) :=
  List.Nodup.sublist (List.Sublist.map Prod.fst (eraseKey_sublist es k)) hnd

/-- After erasing a key from a duplicate-free map, the key is gone. -/
theorem key_not_mem_erase {es : List (Str × CacheEntry)} (k : Str) (hnd : nodupKeys es) :
    k ∉ (eraseKey es k).map Prod.fst := by
  induction es with
  | nil => simp [eraseKey]
  | cons a t ih =>
    unfold nodupKeys at hnd
    rw [List.map_cons, List.nodup_cons] at hnd
    unfold eraseKey
    by_cases he : a.1 = k
    · rw [if_pos he]
      rw [← he]
      exact hnd.1
    · rw [if_neg he]
      rw [List.map_cons]
      intro hmem
      rcases List.mem_cons.mp hmem with he2 | hmem'
      · exact he he2.symm
      · exact ih hnd.2 hmem'

/-- The C9 invariant on one shard: duplicate-free keys, the tracked size
equals the sum of the entry sizes, and every entry size is
nonnegative. -/
def shardInv (sh : CacheShard) : Prop :=
  nodupKeys sh.entries ∧ sh.size = sumSizes sh.entries ∧ ∀ p ∈ sh.entries, 0 ≤ p.2.size

/-- The empty shard satisfies the invariant. -/
theorem shardInv_empty : shardInv emptyShard := by
  refine ⟨?_, ?_, ?_⟩ <;> simp [emptyShard, nodupKeys, sumSizes]

/-- `evictOldest` preserves the shard invariant. -/
theorem shardInv_evictOldest (sh : CacheShard) (h : shardInv sh) :
    shardInv (evictOldest sh) := by
  obtain ⟨hnd, hsz, hpos⟩ := h
  unfold evictOldest
  by_cases hk : (selectOldest sh.entries).1 ≠ []
  · rw [if_pos hk]
    cases hl : lookupEntry sh.entries (selectOldest sh.entries).1 with
    | none =>
      rw [eraseKey_of_lookup_none _ _ hl]
      refine ⟨hnd, ?_, hpos⟩
      dsimp only [Option.map_none', Option.getD_none]
      omega
    | some e =>
      refine ⟨nodupKeys_erase _ hnd, ?_, ?_⟩
      · dsimp only [Option.map_some', Option.getD_some]
        rw [sumSizes_erase _ _ _ hl]
        omega
      · exact fun p hp => hpos p (mem_of_mem_eraseKey hp)
  · rw [if_neg hk]
    exact ⟨hnd, hsz, hpos⟩

/-- `setShard` preserves the shard invariant. -/
theorem shardInv_setShard (q : Int) (sh : CacheShard) (k : Str) (v : DNSResponse)
    (ttl now : Nat) (h : shardInv sh) : shardInv (setShard q sh k v ttl now) := by
  set sh1 := if q < sh.size + estimateSize v then evictOldest sh else sh with hsh1
  have h1 : shardInv sh1 := by
    rw [hsh1]
    by_cases hq : q < sh.size + estimateSize v
    · rw [if_pos hq]
      exact shardInv_evictOldest sh h
    · rw [if_neg hq]
      exact h
  obtain ⟨hnd1, hsz1, hpos1⟩ := h1
  have hmemcase : ∀ p ∈ (k, (⟨v, now + ttl, estimateSize v⟩ : CacheEntry)) ::
      eraseKey sh1.entries k, 0 ≤ p.2.size := by
    intro p hp
    rcases List.mem_cons.mp hp with rfl | hp'
    · exact estimateSize_nonneg v
    · exact hpos1 p (mem_of_mem_eraseKey hp')
  have hndcase : nodupKeys ((k, (⟨v, now + ttl, estimateSize v⟩ : CacheEntry)) ::
      eraseKey sh1.entries k) := by
    unfold nodupKeys
    rw [List.map_cons, List.nodup_cons]
    exact ⟨key_not_mem_erase k hnd1, nodupKeys_erase k hnd1⟩
  cases hl : lookupEntry sh1.entries k with
  | some old =>
    have heq : setShard q sh k v ttl now =
        { entries := (k, ⟨v, now + ttl, estimateSize v⟩) :: eraseKey sh1.entries k,
          size := sh1.size - old.size + estimateSize v } := by
      unfold setShard
      dsimp only
      rw [← hsh1, hl]
    rw [heq]
    refine ⟨hndcase, ?_, hmemcase⟩
    show sh1.size - old.size + estimateSize v = _
    unfold sumSizes
    rw [List.map_cons, List.sum_cons]
    have hse := sumSizes_erase sh1.entries k old hl
    unfold sumSizes at hse hsz1
    dsimp only
    omega
  | none =>
    have heq : setShard q sh k v ttl now =
        { entries := (k, ⟨v, now + ttl, estimateSize v⟩) :: eraseKey sh1.entries k,
          size := sh1.size + estimateSize v } := by
      unfold setShard
      dsimp only
      rw [← hsh1, hl]
    rw [heq]
    refine ⟨hndcase, ?_, hmemcase⟩
    show sh1.size + estimateSize v = _
    unfold sumSizes
    rw [List.map_cons, List.sum_cons, eraseKey_of_lookup_none _ _ hl]
    unfold sumSizes at hsz1
    dsimp only
    omega

/-- The state part of `getShard` preserves the shard invariant. -/
theorem shardInv_getShard (sh : CacheShard) (k : Str) (now : Nat) (h : shardInv sh) :
    shardInv (getShard sh k now).2 := by
  obtain ⟨hnd, hsz, hpos⟩ := h
  unfold getShard
  cases hl : lookupEntry sh.entries k with
  | none => exact ⟨hnd, hsz, hpos⟩
  | some e =>
    dsimp only
    by_cases hexp : e.expires < now
    · rw [if_pos hexp]
      refine ⟨nodupKeys_erase _ hnd, ?_, ?_⟩
      · show sh.size - e.size = _
        rw [sumSizes_erase _ _ _ hl]
        omega
      · exact fun p hp => hpos p (mem_of_mem_eraseKey hp)
    · rw [if_neg hexp]
      exact ⟨hnd, hsz, hpos⟩

/-- `deleteShard` preserves the shard invariant. -/
theorem shardInv_deleteShard (sh : CacheShard) (k : Str) (h : shardInv sh) :
    shardInv (deleteShard sh k) := by
  obtain ⟨hnd, hsz, hpos⟩ := h
  unfold deleteShard
  cases hl : lookupEntry sh.entries k with
  | none => exact ⟨hnd, hsz, hpos⟩
  | some e =>
    dsimp only
    refine ⟨nodupKeys_erase _ hnd, ?_, ?_⟩
    · show sh.size - e.size = _
      rw [sumSizes_erase _ _ _ hl]
      omega
    · exact fun p hp => hpos p (mem_of_mem_eraseKey hp)

/-- The C9 invariant on the whole cache. -/
def cacheInv (c : ShardedCache) : Prop := ∀ sh ∈ c.shards, shardInv sh

/-- Reading any shard slot of an invariant cache yields an invariant
shard (the out-of-range default is the empty shard). -/
theorem cacheInv_getD {c : ShardedCache} (h : cacheInv c) (i : Nat) :
    shardInv (c.shards.getD i emptyShard) := by
  by_cases hi : i < c.shards.length
  · rw [List.getD_eq_getElem?_getD, List.getElem?_eq_getElem hi]
    exact h _ (List.getElem_mem hi)
  · rw [List.getD_eq_getElem?_getD, List.getElem?_eq_none (Nat.le_of_not_lt hi)]
    exact shardInv_empty

/-- Every cache operation preserves the cache invariant. -/
theorem cacheInv_applyOp {c : ShardedCache} (h : cacheInv c) (op : CacheOp) :
    cacheInv (applyCacheOp c op) := by
  cases op with
  | set key v ttl now =>
    intro sh hsh
    rcases List.mem_or_eq_of_mem_set hsh with hin | rfl
    · exact h sh hin
    · exact shardInv_setShard _ _ _ _ _ _ (cacheInv_getD h _)
  | get key now =>
    intro sh hsh
    rcases List.mem_or_eq_of_mem_set hsh with hin | rfl
    · exact h sh hin
    · exact shardInv_getShard _ _ _ (cacheInv_getD h _)
  | del key =>
    intro sh hsh
    rcases List.mem_or_eq_of_mem_set hsh with hin | rfl
    · exact h sh hin
    · exact shardInv_deleteShard _ _ (cacheInv_getD h _)
  | clear =>
    intro sh hsh
    rcases List.mem_map.mp hsh with ⟨_, _, rfl⟩
    exact shardInv_empty

/-- Sequences of cache operations preserve the cache invariant. -/
theorem cacheInv_applyOps (ops : List CacheOp) {c : ShardedCache} (h : cacheInv c) :
    cacheInv (applyCacheOps c ops) := by
  induction ops generalizing c with
  | nil => exact h
  | cons op t ih => exact ih (cacheInv_applyOp h op)

/-- A fresh cache satisfies the invariant. -/
theorem cacheInv_new (maxSize numShards : Int) :
    cacheInv (newShardedCache maxSize numShards) := by
  intro sh hsh
  unfold newShardedCache at hsh
  rw [List.mem_replicate] at hsh
  rw [hsh.2]
  exact shardInv_empty

/-- C9: after any sequence of sequential cache operations starting from
a fresh cache, every shard's tracked size field equals the sum of the
Size fields of the entries present in its (duplicate-free) map, and is
in particular nonnegative. -/
theorem c9_shard_size_invariant (maxSize numShards : Int) (ops : List CacheOp)
    (i : Nat) (h : i < (applyCacheOps (newShardedCache maxSize numShards) ops).shards.length) :
    nodupKeys ((applyCacheOps (newShardedCache maxSize numShards) ops).shards.get ⟨i, h⟩).entries ∧
    ((applyCacheOps (newShardedCache maxSize numShards) ops).shards.get ⟨i, h⟩).size =
      sumSizes ((applyCacheOps (newShardedCache maxSize numShards) ops).shards.get ⟨i, h⟩).entries ∧
    0 ≤ ((applyCacheOps (newShardedCache maxSize numShards) ops).shards.get ⟨i, h⟩).size := by
  have hinv := cacheInv_applyOps ops (cacheInv_new maxSize numShards)
  obtain ⟨h1, h2, h3⟩ := hinv _ (List.get_mem _ i h)
  refine ⟨h1, h2, ?_⟩
  rw [h2]
  unfold sumSizes
  refine List.sum_nonneg ?_
  intro x hx
  rcases List.mem_map.mp hx with ⟨p, hp, rfl⟩
  exact h3 p hp

/-- A sample operation sequence exercising Set (with eviction), Get
(with expiry), Delete and Clear. -/
def opsW : List CacheOp :=
  [.set ['a'] respTiny 60 0, .set ['b'] respBig 10 0, .get ['a'] 100,
   .del ['b'], .clear, .set ['a'] respTiny 5 3]

/-- C9 witness: the invariant instantiated on the cache reached by the
sample operation sequence. -/
theorem c9_shard_size_invariant_witness :
    nodupKeys ((applyCacheOps (newShardedCache 100 2) opsW).shards.get ⟨0, by decide⟩).entries ∧
    ((applyCacheOps (newShardedCache 100 2) opsW).shards.get ⟨0, by decide⟩).size =
      sumSizes ((applyCacheOps (newShardedCache 100 2) opsW).shards.get ⟨0, by decide⟩).entries ∧
    0 ≤ ((applyCacheOps (newShardedCache 100 2) opsW).shards.get ⟨0, by decide⟩).size :=
  c9_shard_size_invariant 100 2 opsW 0 (by decide)
